import Mathlib

/-!
Shallow embedding of the GitHub Repo Analyzer CLI core (src/utils.ts and
src/api.ts). Strings handled character-by-character are modelled as lists of
characters; the JS regular expressions of utils.ts are modelled by equivalent
structural matchers (each matcher's doc comment records the regex it embeds and
why greedy matching makes the equivalence hold); JS numbers in the language
percentage computation are modelled as rationals; fallible HTTP fetches are
modelled as `Except` values supplied as inputs, so that the catch/absorb
behaviour of the client is explicit.
-/

namespace GHA

/-- ASCII whitespace, modelling the whitespace class used by JS `trim` and `\s`
(the JS class also holds some Unicode spaces, which never occur in the inputs
considered here). -/
def isSpaceChar (c : Char) : Bool :=
  c = ' ' || c = '\t' || c = '\n' || c = '\r' || c = Char.ofNat 11 || c = Char.ofNat 12

/-- Model of `input.trim()`: remove whitespace from both ends. -/
def trimList (l : List Char) : List Char :=
  ((l.dropWhile isSpaceChar).reverse.dropWhile isSpaceChar).reverse

/-- Model of `.replace(/\/+$/, '')`: remove every trailing slash. -/
def stripTrailingSlashes (l : List Char) : List Char :=
  (l.reverse.dropWhile (fun c => c = '/')).reverse

/-- Consume a literal leading pattern, returning the remainder when the pattern
is present at the front. -/
def chopLead : List Char → List Char → Option (List Char)
  | [], l => some l
  | _ :: _, [] => none
  | p :: ps, c :: cs => if p = c then chopLead ps cs else none

/-- The character class `[^\/]`. -/
def notSlash (c : Char) : Bool := !(c = '/')

/-- The character class `[^\/\s]`. -/
def notSlashSpace (c : Char) : Bool := notSlash c && !isSpaceChar c

/-- Matcher for `/^https?:\/\/github\.com\/([^\/]+)\/([^\/]+)(?:\.git)?(?:\/.*)?$/`.
Each captured segment is the maximal slash-free run at its position, exactly as
the greedy `[^\/]+` captures it; because the second capture is greedy, the
optional `(?:\.git)?` group can only ever match the empty string, so a `.git`
suffix stays inside the second capture, and `(?:\/.*)?$` accepts whatever
follows the second segment (nothing, or a slash and the rest). -/
def matchHttpsPattern (l : List Char) : Option (List Char × List Char) :=
  let rest? :=
    match chopLead ("https://github.com/".data) l with
    | some r => some r
    | none => chopLead ("http://github.com/".data) l
  match rest? with
  | none => none
  | some rest =>
    match rest.takeWhile notSlash, rest.dropWhile notSlash with
    | seg1 :: segs, _ :: rest2 =>
      match rest2.takeWhile notSlash with
      | [] => none
      | s2 :: s2s => some (seg1 :: segs, s2 :: s2s)
    | _, _ => none

/-- Matcher for `/^git@github\.com:([^\/]+)\/([^\/]+)(?:\.git)?$/`.
The second capture must reach the end of the input with no further slash; being
greedy it keeps any `.git` suffix. -/
def matchSshPattern (l : List Char) : Option (List Char × List Char) :=
  match chopLead ("git@github.com:".data) l with
  | none => none
  | some rest =>
    match rest.takeWhile notSlash, rest.dropWhile notSlash with
    | seg1 :: segs, _ :: rest2 =>
      if !rest2.isEmpty && rest2.all notSlash then some (seg1 :: segs, rest2)
      else none
    | _, _ => none

/-- Matcher for `/^([^\/\s]+)\/([^\/\s]+)$/`: a first segment free of slashes
and whitespace, a literal slash, and a second such segment reaching the end. -/
def matchBarePattern (l : List Char) : Option (List Char × List Char) :=
  match l.takeWhile notSlashSpace, l.dropWhile notSlashSpace with
  | seg1 :: segs, c :: rest2 =>
    if c = '/' && !rest2.isEmpty && rest2.all notSlashSpace then
      some (seg1 :: segs, rest2)
    else none
  | _, _ => none

structure ParsedGitHubUrl where
  owner : List Char
  repo : List Char
  isValid : Bool
deriving DecidableEq

/-- The `cleanInput` of parseGitHubUrl: trim, then strip trailing slashes. -/
def cleanedInput (input : List Char) : List Char :=
  stripTrailingSlashes (trimList input)

/-- The function `parseGitHubUrl` of src/utils.ts: clean the input, then try the three
patterns in order and return the trimmed captures of the first match; return
an invalid result with empty captures when none matches. -/
def parseGitHubUrl (input : List Char) : ParsedGitHubUrl :=
  match matchHttpsPattern (cleanedInput input) with
  | some (o, r) => ⟨trimList o, trimList r, true⟩
  | none =>
    match matchSshPattern (cleanedInput input) with
    | some (o, r) => ⟨trimList o, trimList r, true⟩
    | none =>
      match matchBarePattern (cleanedInput input) with
      | some (o, r) => ⟨trimList o, trimList r, true⟩
      | none => ⟨[], [], false⟩

/-- The character class `[a-zA-Z0-9]`. -/
def isAlnum (c : Char) : Bool :=
  ('a' ≤ c && c ≤ 'z') || ('A' ≤ c && c ≤ 'Z') || ('0' ≤ c && c ≤ '9')

/-- The character class `[a-zA-Z0-9-]`. -/
def isAlnumDash (c : Char) : Bool := isAlnum c || c = '-'

/-- Matcher for the tail `([a-zA-Z0-9-])*[a-zA-Z0-9]$` of the username regex:
a possibly empty run of `[a-zA-Z0-9-]` followed by one final `[a-zA-Z0-9]`. -/
def tailRunThenAlnum : List Char → Bool
  | [] => false
  | [c] => isAlnum c
  | c :: cs => isAlnumDash c && tailRunThenAlnum cs

/-- Matcher for `/^[a-zA-Z0-9]([a-zA-Z0-9-])*[a-zA-Z0-9]$|^[a-zA-Z0-9]$/`. -/
def usernameRegexTest : List Char → Bool
  | [] => false
  | [c] => isAlnum c
  | c :: cs => isAlnum c && tailRunThenAlnum cs

/-- Leading-match check used to model `String.prototype.includes`. -/
def leadsWith : List Char → List Char → Bool
  | [], _ => true
  | _ :: _, [] => false
  | p :: ps, c :: cs => p = c && leadsWith ps cs

/-- Model of `input.includes(pat)`: the pattern occurs contiguously somewhere. -/
def hasSubstr (pat : List Char) : List Char → Bool
  | [] => pat.isEmpty
  | c :: cs => leadsWith pat (c :: cs) || hasSubstr pat cs

/-- The function `isGitHubUsername` of src/utils.ts: trim; reject anything holding a slash,
the substring "http", or the substring "git@"; otherwise test the username
regex and the 39-character bound. -/
def isGitHubUsername (input : List Char) : Bool :=
  let cleanInput := trimList input
  if cleanInput.any (fun c => c = '/') || hasSubstr ("http".data) cleanInput
      || hasSubstr ("git@".data) cleanInput then
    false
  else
    usernameRegexTest cleanInput && cleanInput.length ≤ 39

/-! ## src/api.ts -/

/-- The commit payload, reduced to the one field the analysis reads:
`commit.commit.committer.date`. -/
structure GitHubCommit where
  committer_date : String
deriving DecidableEq

/-- The repository payload, reduced to the fields the analysis reads.
`updated_at_time` models `new Date(updated_at).getTime()`, the number the
sort comparator actually compares. -/
structure GitHubRepository where
  name : String
  full_name : String
  description : Option String
  html_url : String
  stargazers_count : Nat
  forks_count : Nat
  open_issues_count : Nat
  pushed_at : String
  created_at : String
  updated_at : String
  updated_at_time : Int
  license : Option String
  topics : List String
  size : Nat
  fork : Bool
  default_branch : String
  owner_login : String
deriving DecidableEq

/-- The user payload, reduced to the fields the analysis reads. -/
structure GitHubUser where
  login : String
  name : Option String
  bio : Option String
  location : Option String
  email : Option String
  blog : Option String
  company : Option String
  public_repos : Nat
  followers : Nat
  following : Nat
  created_at : String
deriving DecidableEq

structure RepositoryAnalysis where
  name : String
  full_name : String
  description : Option String
  url : String
  stars : Nat
  forks : Nat
  open_issues : Nat
  last_commit_date : String
  languages : List (String × ℚ)
  created_at : String
  updated_at : String
  license : Option String
  topics : List String
  size : Nat
  default_branch : String
deriving DecidableEq

structure UserAnalysis where
  username : String
  name : Option String
  bio : Option String
  location : Option String
  email : Option String
  blog : Option String
  company : Option String
  public_repos : Nat
  followers : Nat
  following : Nat
  created_at : String
  repositories : List RepositoryAnalysis
deriving DecidableEq

/-- Model of `Math.round`: round to the nearest integer, halves toward positive
infinity, i.e. the floor of x + 1/2. -/
def jsRound (q : ℚ) : ℤ := Rat.floor (q + 1/2)

/-- The success path of `getRepositoryLanguages`: sum the byte counts and map
each entry to `Math.round((bytes / totalBytes) * 10000) / 100`. -/
def computeLanguagePercentages (data : List (String × Nat)) : List (String × ℚ) :=
  let totalBytes : Nat := (data.map (fun p => p.2)).sum
  data.map (fun p => (p.1, (jsRound ((p.2 : ℚ) / (totalBytes : ℚ) * 10000) : ℚ) / 100))

/-- The function `getRepositoryLanguages`: any fetch failure is caught and an empty mapping
returned instead. -/
def getRepositoryLanguages (resp : Except String (List (String × Nat))) :
    List (String × ℚ) :=
  match resp with
  | .error _ => []
  | .ok data => computeLanguagePercentages data

/-- The function `getLatestCommit`: the first element of the one-commit page when there is
one; null both on an empty page and on any fetch failure. -/
def getLatestCommit (resp : Except String (List GitHubCommit)) :
    Option GitHubCommit :=
  match resp with
  | .error _ => none
  | .ok data => data.head?

/-- JS `a || b` on strings: `b` when `a` is falsy, that is, empty or absent. -/
def jsOrString (a b : String) : String := if a = "" then b else a

/-- Model of `latestCommit?.commit.committer.date || repository.pushed_at`: the optional
chain yields a falsy value for a missing commit. -/
def lastCommitDate (latestCommit : Option GitHubCommit) (pushed_at : String) :
    String :=
  jsOrString (match latestCommit with | some c => c.committer_date | none => "")
    pushed_at

/-- The `RepositoryAnalysis` record literal shared by `analyzeRepository` and
the per-repository loop of `analyzeUser`. -/
def mkRepositoryAnalysis (repository : GitHubRepository)
    (languages : List (String × ℚ)) (latestCommit : Option GitHubCommit) :
    RepositoryAnalysis :=
  { name := repository.name
    full_name := repository.full_name
    description := repository.description
    url := repository.html_url
    stars := repository.stargazers_count
    forks := repository.forks_count
    open_issues := repository.open_issues_count
    last_commit_date := lastCommitDate latestCommit repository.pushed_at
    languages := languages
    created_at := repository.created_at
    updated_at := repository.updated_at
    license := repository.license
    topics := repository.topics
    size := repository.size
    default_branch := repository.default_branch }

/-- The function `analyzeRepository` as a function of the outcomes of its three fetches:
a repository-fetch failure makes the joint await reject and is rethrown, while
the languages and latest-commit fetches have already absorbed their failures
inside their own wrappers. -/
def analyzeRepository (repoResp : Except String GitHubRepository)
    (langResp : Except String (List (String × Nat)))
    (commitResp : Except String (List GitHubCommit)) :
    Except String RepositoryAnalysis :=
  match repoResp with
  | .error e => .error e
  | .ok repository =>
      .ok (mkRepositoryAnalysis repository (getRepositoryLanguages langResp)
        (getLatestCommit commitResp))

/-- The sort comparator of `analyzeUser` as the Boolean stays-before relation
of a stable sort: `cmp(a, b) <= 0`, i.e. more stars first, star ties broken by
the more recently updated repository first. -/
def repoLe (a b : GitHubRepository) : Bool :=
  if a.stargazers_count = b.stargazers_count then
    decide (b.updated_at_time ≤ a.updated_at_time)
  else
    decide (b.stargazers_count < a.stargazers_count)

/-- Stable insertion w.r.t. a stays-before relation: the new element goes in
front of the first element it may stay before. -/
def stableInsert (le : α → α → Bool) (x : α) : List α → List α
  | [] => [x]
  | y :: ys => if le x y then x :: y :: ys else y :: stableInsert le x ys

/-- Model of `Array.prototype.sort` with a consistent comparator: the stable sort
determined by the stays-before relation, modelled by stable insertion sort. -/
def jsSort (le : α → α → Bool) : List α → List α
  | [] => []
  | x :: xs => stableInsert le x (jsSort le xs)

/-- The repository selection of `analyzeUser`: drop forks, stable-sort by the
comparator, take the first `maxRepos`. -/
def selectRepos (repositories : List GitHubRepository) (maxRepos : Nat) :
    List GitHubRepository :=
  (jsSort repoLe (repositories.filter (fun repo => !repo.fork))).take maxRepos

/-- The function `analyzeUser` as a function of the fetched user, the fetched repository
list, and — for each selected repository — the outcomes of its languages and
latest-commit fetches. Both per-repository fetch wrappers absorb their own
failures, so the body of the per-repository try never throws and every
selected repository yields an entry. -/
def analyzeUser (user : GitHubUser) (repositories : List GitHubRepository)
    (langResp : GitHubRepository → Except String (List (String × Nat)))
    (commitResp : GitHubRepository → Except String (List GitHubCommit))
    (maxRepos : Nat) : UserAnalysis :=
  let sortedRepos := selectRepos repositories maxRepos
  { username := user.login
    name := user.name
    bio := user.bio
    location := user.location
    email := user.email
    blog := user.blog
    company := user.company
    public_repos := user.public_repos
    followers := user.followers
    following := user.following
    created_at := user.created_at
    repositories := sortedRepos.map (fun repo =>
      mkRepositoryAnalysis repo (getRepositoryLanguages (langResp repo))
        (getLatestCommit (commitResp repo))) }

/-- One page of `GET /users/{username}/repos`: the origin pages its full,
most-recently-updated-first repository list by `per_page` and `page`. -/
def pageOf (all : List GitHubRepository) (perPage page : Nat) :
    List GitHubRepository :=
  (all.drop ((page - 1) * perPage)).take perPage

/-- The `while (hasMore)` pagination loop of `getUserRepositories`: request
pages starting at `page`, accumulate, and keep going exactly while a page
comes back with exactly `perPage` items. The fuel argument bounds the
recursion (the loop as written in the source has no other bound); the result
carries the accumulated repositories and the number of requests made. -/
def fetchPagesFrom (all : List GitHubRepository) (perPage : Nat) :
    Nat → Nat → Option (List GitHubRepository × Nat)
  | _, 0 => none
  | page, fuel + 1 =>
    let data := pageOf all perPage page
    if data.length = perPage then
      match fetchPagesFrom all perPage (page + 1) fuel with
      | none => none
      | some (rest, requests) => some (data ++ rest, requests + 1)
    else
      some (data, 1)

/-- The function `getUserRepositories`, started at page 1 with enough fuel for an origin
holding `all`. -/
def getUserRepositories (all : List GitHubRepository) (perPage : Nat) :
    Option (List GitHubRepository × Nat) :=
  fetchPagesFrom all perPage 1 (all.length / perPage + 1)

/-- A repository value with every field the analysis does not sort or filter
on held fixed; used for concrete instances. -/
def sampleRepo (name : String) (stars : Nat) (t : Int) (fk : Bool) :
    GitHubRepository :=
  { name := name
    full_name := name
    description := none
    html_url := ""
    stargazers_count := stars
    forks_count := 0
    open_issues_count := 0
    pushed_at := "2024-01-01T00:00:00Z"
    created_at := ""
    updated_at := ""
    updated_at_time := t
    license := none
    topics := []
    size := 0
    fork := fk
    default_branch := "main"
    owner_login := "owner" }

theorem mem_stableInsert (le : α → α → Bool) (x a : α) (l : List α) :
    a ∈ stableInsert le x l ↔ a = x ∨ a ∈ l := by
  induction l with
  | nil => simp [stableInsert]
  | cons y ys ih =>
    by_cases h : le x y
    · simp only [stableInsert, if_pos h, List.mem_cons]
    · simp only [stableInsert, if_neg h, List.mem_cons, ih]
      tauto

theorem length_stableInsert (le : α → α → Bool) (x : α) (l : List α) :
    (stableInsert le x l).length = l.length + 1 := by
  induction l with
  | nil => rfl
  | cons y ys ih =>
    by_cases h : le x y <;> simp [stableInsert, h, ih]

theorem pairwise_stableInsert {le : α → α → Bool}
    (htrans : ∀ a b c, le a b = true → le b c = true → le a c = true)
    (htotal : ∀ a b, le a b = true ∨ le b a = true) (x : α) (l : List α)
    (hl : l.Pairwise (fun a b => le a b = true)) :
    (stableInsert le x l).Pairwise (fun a b => le a b = true) := by
  induction l with
  | nil => simp [stableInsert]
  | cons y ys ih =>
    rw [List.pairwise_cons] at hl
    obtain ⟨hy, hys⟩ := hl
    by_cases h : le x y
    · have hrest : ∀ z ∈ y :: ys, le x z = true := by
        intro z hz
        rcases List.mem_cons.mp hz with hz | hz
        · exact hz ▸ h
        · exact htrans x y z h (hy z hz)
      rw [stableInsert, if_pos h, List.pairwise_cons]
      exact ⟨hrest, List.pairwise_cons.mpr ⟨hy, hys⟩⟩
    · rw [stableInsert, if_neg h, List.pairwise_cons]
      refine ⟨fun z hz => ?_, ih hys⟩
      rcases (mem_stableInsert le x z ys).mp hz with hz | hz
      · rw [hz]
        rcases htotal x y with hxy | hyx
        · exact absurd hxy h
        · exact hyx
      · exact hy z hz

theorem mem_jsSort (le : α → α → Bool) (a : α) (l : List α) :
    a ∈ jsSort le l ↔ a ∈ l := by
  induction l with
  | nil => simp [jsSort]
  | cons x xs ih => simp [jsSort, mem_stableInsert, ih]

theorem length_jsSort (le : α → α → Bool) (l : List α) :
    (jsSort le l).length = l.length := by
  induction l with
  | nil => rfl
  | cons x xs ih => simp [jsSort, length_stableInsert, ih]

theorem pairwise_jsSort {le : α → α → Bool}
    (htrans : ∀ a b c, le a b = true → le b c = true → le a c = true)
    (htotal : ∀ a b, le a b = true ∨ le b a = true) (l : List α) :
    (jsSort le l).Pairwise (fun a b => le a b = true) := by
  induction l with
  | nil => simp [jsSort]
  | cons x xs ih => exact pairwise_stableInsert htrans htotal x _ ih

theorem repoLe_iff (a b : GitHubRepository) :
    repoLe a b = true ↔
      (b.stargazers_count < a.stargazers_count ∨
       (a.stargazers_count = b.stargazers_count ∧
        b.updated_at_time ≤ a.updated_at_time)) := by
  unfold repoLe
  split <;> simp [*]

theorem repoLe_trans (a b c : GitHubRepository) :
    repoLe a b = true → repoLe b c = true → repoLe a c = true := by
  simp only [repoLe_iff]
  omega

theorem repoLe_total (a b : GitHubRepository) :
    repoLe a b = true ∨ repoLe b a = true := by
  simp only [repoLe_iff]
  omega

/-- C2: The repository sequence selected by analyzeUser holds no fork, has
at most maxRepos entries, and is ordered by descending star count with star
ties broken by descending last-update time; on the star profile [5, 20, 20, 1]
the two 20-star repositories come first, the more recently updated one of them
leading. -/
theorem C2_selection_invariants :
    (∀ (repositories : List GitHubRepository) (maxRepos : Nat),
       (∀ repo ∈ selectRepos repositories maxRepos, repo.fork = false) ∧
       (selectRepos repositories maxRepos).length ≤ maxRepos ∧
       (selectRepos repositories maxRepos).Pairwise (fun a b =>
          b.stargazers_count < a.stargazers_count ∨
          (a.stargazers_count = b.stargazers_count ∧
           b.updated_at_time ≤ a.updated_at_time))) ∧
    selectRepos [sampleRepo "a" 5 0 false, sampleRepo "b" 20 10 false,
        sampleRepo "c" 20 99 false, sampleRepo "d" 1 0 false] 10 =
      [sampleRepo "c" 20 99 false, sampleRepo "b" 20 10 false,
       sampleRepo "a" 5 0 false, sampleRepo "d" 1 0 false] := by
  constructor
  · intro repositories maxRepos
    refine ⟨?_, ?_, ?_⟩
    · intro repo hrepo
      have h1 : repo ∈ jsSort repoLe
          (repositories.filter (fun r => !r.fork)) :=
        List.mem_of_mem_take hrepo
      have h2 := List.mem_filter.mp ((mem_jsSort _ _ _).mp h1)
      simpa using h2.2
    · exact List.length_take_le _ _
    · have hp := pairwise_jsSort repoLe_trans repoLe_total
        (repositories.filter (fun r => !r.fork))
      have hp2 := hp.sublist (List.take_sublist maxRepos _)
      exact hp2.imp (fun h => (repoLe_iff _ _).mp h)
  · decide

/-- Witness for C2 at a concrete instance. -/
theorem C2_selection_invariants_witness :
    sampleRepo "c" 20 99 false ∈
      selectRepos [sampleRepo "a" 5 0 true, sampleRepo "c" 20 99 false] 5 →
    (sampleRepo "c" 20 99 false).fork = false := by
  intro h
  exact (C2_selection_invariants.1
    [sampleRepo "a" 5 0 true, sampleRepo "c" 20 99 false] 5).1 _ h

/-- C10: In analyzeUser, every selected repository produces an entry (the
per-repository catch is unreachable because both per-repository fetch wrappers
absorb their own failures), so the repositories field is exactly the mapped
selection and its length is min(maxRepos, number of non-fork repositories
fetched). -/
theorem C10_every_selected_repo_yields_entry :
    ∀ (user : GitHubUser) (repositories : List GitHubRepository)
      (langResp : GitHubRepository → Except String (List (String × Nat)))
      (commitResp : GitHubRepository → Except String (List GitHubCommit))
      (maxRepos : Nat),
      (analyzeUser user repositories langResp commitResp maxRepos).repositories =
        (selectRepos repositories maxRepos).map (fun repo =>
          mkRepositoryAnalysis repo (getRepositoryLanguages (langResp repo))
            (getLatestCommit (commitResp repo))) ∧
      (analyzeUser user repositories langResp commitResp
          maxRepos).repositories.length =
        min maxRepos (repositories.filter (fun repo => !repo.fork)).length := by
  intro user repositories langResp commitResp maxRepos
  refine ⟨rfl, ?_⟩
  simp [analyzeUser, selectRepos, List.length_take, length_jsSort]

/-! ## Pagination -/

theorem fetchPagesFrom_spec (all : List GitHubRepository) (perPage : Nat)
    (hpp : 0 < perPage) :
    ∀ (fuel k : Nat),
      (all.drop (k * perPage)).length / perPage + 1 ≤ fuel →
      fetchPagesFrom all perPage (k + 1) fuel =
        some (all.drop (k * perPage),
          (all.drop (k * perPage)).length / perPage + 1) := by
  intro fuel
  induction fuel with
  | zero => intro k h; exact (Nat.not_succ_le_zero _ h).elim
  | succ fuel ih =>
    intro k hfuel
    have hpage : pageOf all perPage (k + 1) =
        (all.drop (k * perPage)).take perPage := by
      simp [pageOf]
    by_cases hlen : perPage ≤ (all.drop (k * perPage)).length
    · have hfull : (pageOf all perPage (k + 1)).length = perPage := by
        rw [hpage, List.length_take]
        omega
      have hdrop : all.drop ((k + 1) * perPage) =
          (all.drop (k * perPage)).drop perPage := by
        rw [List.drop_drop]
        ring_nf
      have hlen2 : ((all.drop (k * perPage)).drop perPage).length =
          (all.drop (k * perPage)).length - perPage := List.length_drop _ _
      have hdiv2 : (all.drop (k * perPage)).length / perPage =
          ((all.drop (k * perPage)).drop perPage).length / perPage + 1 := by
        rw [hlen2]
        exact Nat.div_eq_sub_div hpp hlen
      have hb : (all.drop ((k + 1) * perPage)).length / perPage + 1 ≤ fuel := by
        rw [hdrop]
        omega
      have ihk := ih (k + 1) hb
      rw [fetchPagesFrom, if_pos hfull, ihk]
      show some (pageOf all perPage (k + 1) ++ all.drop ((k + 1) * perPage),
        ((all.drop ((k + 1) * perPage)).length / perPage + 1) + 1) = _
      rw [hpage, hdrop, List.take_append_drop, hdiv2]
    · have hshort : (pageOf all perPage (k + 1)).length ≠ perPage := by
        rw [hpage, List.length_take]
        omega
      have htake : (all.drop (k * perPage)).take perPage =
          all.drop (k * perPage) :=
        List.take_of_length_le (by omega)
      have hzero : (all.drop (k * perPage)).length / perPage = 0 :=
        Nat.div_eq_of_lt (by omega)
      rw [fetchPagesFrom, if_neg hshort, hpage, htake, hzero]

/-- C8: getUserRepositories pages with a fixed page size, requesting the
next page exactly while the current page came back full, stops at the first
short page, and returns the concatenation of all pages — the origin's whole
list — having made length / perPage + 1 requests; in particular an origin
with exactly n x perPage repositories costs n + 1 requests, the last page
being empty. -/
theorem C8_pagination :
    ∀ (all : List GitHubRepository) (perPage : Nat), 0 < perPage →
      getUserRepositories all perPage =
        some (all, all.length / perPage + 1) ∧
      (∀ n, all.length = n * perPage →
        getUserRepositories all perPage = some (all, n + 1) ∧
        pageOf all perPage (n + 1) = []) := by
  intro all perPage hpp
  have h := fetchPagesFrom_spec all perPage hpp (all.length / perPage + 1) 0
    (by simp)
  simp only [Nat.zero_mul, List.drop_zero] at h
  have h1 : getUserRepositories all perPage =
      some (all, all.length / perPage + 1) := h
  refine ⟨h1, ?_⟩
  intro n hn
  have hq : all.length / perPage = n := by
    rw [hn]
    exact Nat.mul_div_cancel n hpp
  refine ⟨by rw [h1, hq], ?_⟩
  have hnil : all.drop ((n + 1 - 1) * perPage) = [] :=
    List.drop_eq_nil_of_le (by simp [hn])
  rw [pageOf, hnil, List.take_nil]

/-- Witness for C8 at a one-repository origin with the fixed page size 100. -/
theorem C8_pagination_witness :
    getUserRepositories [sampleRepo "x" 1 0 false] 100 =
      some ([sampleRepo "x" 1 0 false], 1) :=
  (C8_pagination [sampleRepo "x" 1 0 false] 100 (by decide)).1

/-- C4: analyzeRepository propagates an error exactly when the
repository-details fetch itself failed; when the repository fetch succeeds and
the languages fetch fails, the result is still a complete analysis whose
languages mapping is empty and whose other fields come from the repository and
commit results. -/
theorem C4_repo_fetch_failure_is_fatal :
    ∀ (repoResp : Except String GitHubRepository)
      (langResp : Except String (List (String × Nat)))
      (commitResp : Except String (List GitHubCommit)),
      (∀ e, analyzeRepository repoResp langResp commitResp = Except.error e ↔
        repoResp = Except.error e) ∧
      (∀ repository e, repoResp = Except.ok repository →
        langResp = Except.error e →
        analyzeRepository repoResp langResp commitResp =
          Except.ok (mkRepositoryAnalysis repository []
            (getLatestCommit commitResp))) := by
  intro repoResp langResp commitResp
  constructor
  · intro e
    cases repoResp <;> simp [analyzeRepository]
  · intro repository e h1 h2
    rw [h1, h2]
    rfl

/-- Witness for C4: a failing languages fetch still yields a complete result
with an empty languages mapping. -/
theorem C4_repo_fetch_failure_is_fatal_witness :
    analyzeRepository (Except.ok (sampleRepo "r" 1 0 false))
      (Except.error "boom") (Except.ok [⟨"2024-05-05T00:00:00Z"⟩]) =
      Except.ok (mkRepositoryAnalysis (sampleRepo "r" 1 0 false) []
        (getLatestCommit (Except.ok [⟨"2024-05-05T00:00:00Z"⟩]))) :=
  (C4_repo_fetch_failure_is_fatal (Except.ok (sampleRepo "r" 1 0 false))
    (Except.error "boom") (Except.ok [⟨"2024-05-05T00:00:00Z"⟩])).2
    (sampleRepo "r" 1 0 false) "boom" rfl rfl

/-- A commit whose committer date is the empty string — a falsy value. -/
def emptyDateCommit : GitHubCommit := { committer_date := "" }

/-- A commit with an ordinary committer date. -/
def dateCommit : GitHubCommit := { committer_date := "2024-05-05T00:00:00Z" }

/-- C3 counterexample: The latest-commit lookup returns a commit, yet
last_commit_date is the push timestamp, not that commit's committer date: the
JS fallback tests the truthiness of the date string, not the presence of the
commit, so an empty committer date falls through. -/
theorem C3_falsy_committer_date_counterexample :
    getLatestCommit (Except.ok [emptyDateCommit]) = some emptyDateCommit ∧
    analyzeRepository (Except.ok (sampleRepo "r" 7 0 false))
        (Except.error "e") (Except.ok [emptyDateCommit]) =
      Except.ok (mkRepositoryAnalysis (sampleRepo "r" 7 0 false) []
        (some emptyDateCommit)) ∧
    (mkRepositoryAnalysis (sampleRepo "r" 7 0 false) []
        (some emptyDateCommit)).last_commit_date =
      (sampleRepo "r" 7 0 false).pushed_at ∧
    (sampleRepo "r" 7 0 false).pushed_at ≠ emptyDateCommit.committer_date := by
  exact ⟨rfl, rfl, rfl, by decide⟩

/-- C3 amended: last_commit_date equals the committer date whenever the
latest-commit lookup yields a commit with a non-empty committer date; when the
lookup yields nothing, or a commit whose committer date is empty, it equals
the repository's last-push timestamp; it is non-empty whenever the push
timestamp is non-empty. The same holds for each per-repository record built
inside analyzeUser, which uses the same expression. -/
theorem C3_last_commit_date :
    (∀ (repository : GitHubRepository)
       (langResp : Except String (List (String × Nat)))
       (commitResp : Except String (List GitHubCommit))
       (a : RepositoryAnalysis),
       analyzeRepository (Except.ok repository) langResp commitResp =
         Except.ok a →
       (∀ c, getLatestCommit commitResp = some c →
          (c.committer_date ≠ "" → a.last_commit_date = c.committer_date) ∧
          (c.committer_date = "" →
            a.last_commit_date = repository.pushed_at)) ∧
       (getLatestCommit commitResp = none →
          a.last_commit_date = repository.pushed_at) ∧
       (repository.pushed_at ≠ "" → a.last_commit_date ≠ "")) ∧
    (∀ (user : GitHubUser) (repositories : List GitHubRepository)
       (langResp : GitHubRepository → Except String (List (String × Nat)))
       (commitResp : GitHubRepository → Except String (List GitHubCommit))
       (maxRepos : Nat) (a : RepositoryAnalysis),
       a ∈ (analyzeUser user repositories langResp commitResp
           maxRepos).repositories →
       ∃ repo, repo ∈ selectRepos repositories maxRepos ∧
         a.last_commit_date =
           lastCommitDate (getLatestCommit (commitResp repo))
             repo.pushed_at) := by
  constructor
  · intro repository langResp commitResp a ha
    have ha' : a = mkRepositoryAnalysis repository
        (getRepositoryLanguages langResp) (getLatestCommit commitResp) :=
      (Except.ok.inj ha).symm
    have hlast : a.last_commit_date =
        lastCommitDate (getLatestCommit commitResp) repository.pushed_at := by
      rw [ha']
      rfl
    refine ⟨?_, ?_, ?_⟩
    · intro c hc
      rw [hlast, hc]
      constructor
      · intro hne
        simp [lastCommitDate, jsOrString, hne]
      · intro heq
        simp [lastCommitDate, jsOrString, heq]
    · intro hc
      rw [hlast, hc]
      simp [lastCommitDate, jsOrString]
    · intro hp
      rw [hlast]
      cases hc : getLatestCommit commitResp with
      | none => simpa [lastCommitDate, jsOrString] using hp
      | some c =>
        by_cases hd : c.committer_date = ""
        · simpa [lastCommitDate, jsOrString, hd] using hp
        · simp [lastCommitDate, jsOrString, hd]
  · intro user repositories langResp commitResp maxRepos a ha
    simp only [analyzeUser, List.mem_map] at ha
    obtain ⟨repo, hrepo, hfa⟩ := ha
    exact ⟨repo, hrepo, by rw [← hfa]; rfl⟩

/-- Witness for C3 at a commit with an ordinary, non-empty committer date. -/
theorem C3_last_commit_date_witness :
    (mkRepositoryAnalysis (sampleRepo "r" 1 0 false) []
        (some dateCommit)).last_commit_date = dateCommit.committer_date := by
  have h := (C3_last_commit_date.1 (sampleRepo "r" 1 0 false)
    (Except.error "e") (Except.ok [dateCommit]) _ rfl).1 dateCommit rfl
  exact h.1 (by decide)

/-! ## Language percentages -/

theorem ratFloor_eq_intFloor (q : ℚ) : Rat.floor q = ⌊q⌋ :=
  (Rat.floor_def' q).trans Rat.floor_def.symm

theorem jsRound_eq_floor (q : ℚ) : jsRound q = ⌊q + 1/2⌋ :=
  ratFloor_eq_intFloor _

theorem jsRound_nonneg {q : ℚ} (h : 0 ≤ q) : 0 ≤ jsRound q := by
  rw [jsRound_eq_floor]
  exact Int.floor_nonneg.mpr (by linarith)

theorem jsRound_le_bound {q : ℚ} (h : q ≤ 10000) : jsRound q ≤ 10000 := by
  rw [jsRound_eq_floor, Int.floor_le_iff]
  push_cast
  linarith

/-- C5: On a successful languages response, every byte-count entry yields
the entry bytes / total * 100 rounded to two decimal places (computed as
round(bytes / total * 10000) / 100), every resulting percentage lies in
[0, 100]; byte counts A: 300, B: 100 give A: 75, B: 25; and the rounded
percentages need not sum to 100, as three equal byte counts show
(3 x 33.33 = 99.99). -/
theorem C5_language_percentages :
    (∀ data : List (String × Nat),
       0 < (data.map (fun p => p.2)).sum →
       (∀ p ∈ data,
          (p.1, (jsRound ((p.2 : ℚ) /
              ((((data.map (fun p => p.2)).sum : ℕ) : ℚ)) * 10000) : ℚ) /
            100) ∈ computeLanguagePercentages data) ∧
       (∀ entry ∈ computeLanguagePercentages data,
          0 ≤ entry.2 ∧ entry.2 ≤ 100)) ∧
    computeLanguagePercentages [("A", 300), ("B", 100)] =
      [("A", 75), ("B", 25)] ∧
    ((computeLanguagePercentages [("A", 1), ("B", 1), ("C", 1)]).map
        (fun entry => entry.2)).sum ≠ 100 := by
  refine ⟨?_, ?_, ?_⟩
  · intro data hsum
    constructor
    · intro p hp
      exact List.mem_map_of_mem _ hp
    · intro entry hentry
      rw [computeLanguagePercentages] at hentry
      obtain ⟨p, hp, hpe⟩ := List.mem_map.mp hentry
      rw [← hpe]
      have hbs : p.2 ≤ (data.map (fun p => p.2)).sum :=
        List.single_le_sum (fun x _ => Nat.zero_le x) _
          (List.mem_map_of_mem _ hp)
      have hS : (0 : ℚ) < ((((data.map (fun p => p.2)).sum : ℕ)) : ℚ) := by
        exact_mod_cast hsum
      have hb : (p.2 : ℚ) ≤ ((((data.map (fun p => p.2)).sum : ℕ)) : ℚ) := by
        exact_mod_cast hbs
      have hx0 : (0 : ℚ) ≤
          (p.2 : ℚ) / ((((data.map (fun p => p.2)).sum : ℕ)) : ℚ) * 10000 := by
        positivity
      have hx1 : (p.2 : ℚ) / ((((data.map (fun p => p.2)).sum : ℕ)) : ℚ) *
          10000 ≤ 10000 := by
        have hdiv : (p.2 : ℚ) /
            ((((data.map (fun p => p.2)).sum : ℕ)) : ℚ) ≤ 1 :=
          (div_le_one hS).mpr hb
        nlinarith
      have h0 := jsRound_nonneg hx0
      have h1 := jsRound_le_bound hx1
      constructor
      · have h0q : (0 : ℚ) ≤ ((jsRound ((p.2 : ℚ) /
            ((((data.map (fun p => p.2)).sum : ℕ)) : ℚ) * 10000) : ℤ) : ℚ) := by
          exact_mod_cast h0
        show (0 : ℚ) ≤ ((jsRound ((p.2 : ℚ) /
            ((((data.map (fun p => p.2)).sum : ℕ)) : ℚ) * 10000) : ℤ) : ℚ) / 100
        linarith
      · have h1q : ((jsRound ((p.2 : ℚ) /
            ((((data.map (fun p => p.2)).sum : ℕ)) : ℚ) * 10000) : ℤ) : ℚ) ≤
            10000 := by
          exact_mod_cast h1
        show ((jsRound ((p.2 : ℚ) /
            ((((data.map (fun p => p.2)).sum : ℕ)) : ℚ) * 10000) : ℤ) : ℚ) /
            100 ≤ 100
        linarith
  · simp only [computeLanguagePercentages, List.map_cons, List.map_nil,
      List.sum_cons, List.sum_nil]
    norm_num
    have ha : jsRound (7500 : ℚ) = 7500 := by
      rw [jsRound_eq_floor, Int.floor_eq_iff]
      norm_num
    have hb : jsRound (2500 : ℚ) = 2500 := by
      rw [jsRound_eq_floor, Int.floor_eq_iff]
      norm_num
    rw [ha, hb]
    norm_num
  · simp only [computeLanguagePercentages, List.map_cons, List.map_nil,
      List.sum_cons, List.sum_nil]
    norm_num
    have hc : jsRound ((10000 : ℚ) / 3) = 3333 := by
      rw [jsRound_eq_floor, Int.floor_eq_iff]
      norm_num
    rw [hc]
    norm_num

/-- Witness for C5 at the byte counts A: 300, B: 100. -/
theorem C5_language_percentages_witness :
    (("A", (jsRound (((300 : ℕ) : ℚ) / ((400 : ℕ) : ℚ) * 10000) : ℚ) / 100) ∈
      computeLanguagePercentages [("A", 300), ("B", 100)]) :=
  (C5_language_percentages.1 [("A", 300), ("B", 100)] (by decide)).1
    ("A", 300) (by decide)

/-! ## Parser lemmas -/

theorem dropWhile_eq_self_of_all {p : Char → Bool} {l : List Char}
    (h : ∀ c ∈ l, p c = false) : l.dropWhile p = l := by
  cases l with
  | nil => rfl
  | cons c cs =>
    rw [List.dropWhile_cons, h c (List.mem_cons_self c cs)]
    simp

theorem trimList_eq_self {l : List Char}
    (h : ∀ c ∈ l, isSpaceChar c = false) : trimList l = l := by
  unfold trimList
  rw [dropWhile_eq_self_of_all h]
  rw [dropWhile_eq_self_of_all (fun c hc => h c (List.mem_reverse.mp hc))]
  exact List.reverse_reverse l

theorem strip_concat {X : List Char} {c : Char} (hc : c ≠ '/') :
    stripTrailingSlashes (X ++ [c]) = X ++ [c] := by
  unfold stripTrailingSlashes
  rw [List.reverse_append]
  simp only [List.reverse_cons, List.reverse_nil, List.nil_append,
    List.singleton_append, List.dropWhile_cons]
  simp [hc]

theorem stripTrailingSlashes_eq_self {l : List Char}
    (h : ∀ c, l.getLast? = some c → c ≠ '/') : stripTrailingSlashes l = l := by
  by_cases hl : l = []
  · subst hl
    rfl
  · have hlast : l.getLast? = some (l.getLast hl) := by
      conv_lhs => rw [← List.dropLast_append_getLast hl]
      exact List.getLast?_concat _
    have hc := h _ hlast
    conv_lhs => rw [← List.dropLast_append_getLast hl]
    rw [strip_concat hc]
    exact List.dropLast_append_getLast hl

theorem chopLead_append (p t : List Char) : chopLead p (p ++ t) = some t := by
  induction p with
  | nil => rfl
  | cons c cs ih => simp [chopLead, ih]

theorem chopLead_eq_some {p l t : List Char} (h : chopLead p l = some t) :
    l = p ++ t := by
  induction p generalizing l with
  | nil =>
    simp only [chopLead, Option.some.injEq] at h
    simpa using h
  | cons c cs ih =>
    cases l with
    | nil => exact absurd h (by simp [chopLead])
    | cons d ds =>
      rw [chopLead] at h
      by_cases hcd : c = d
      · rw [if_pos hcd] at h
        rw [← hcd, ih h]
        rfl
      · rw [if_neg hcd] at h
        exact absurd h (by simp)

theorem chopLead_none_of_mem {P l : List Char} {c : Char}
    (hc : c ∈ P) (hl : c ∉ l) : chopLead P l = none := by
  cases h : chopLead P l with
  | none => rfl
  | some t =>
    exact absurd (chopLead_eq_some h ▸ List.mem_append_left t hc) hl

theorem chopLead_none_head {p c : Char} {ps cs : List Char} (h : p ≠ c) :
    chopLead (p :: ps) (c :: cs) = none := by
  simp [chopLead, h]

theorem takeWhile_eq_self_of_all {p : Char → Bool} {l : List Char}
    (h : ∀ c ∈ l, p c = true) : l.takeWhile p = l := by
  induction l with
  | nil => rfl
  | cons c cs ih =>
    rw [List.takeWhile_cons, if_pos (h c (List.mem_cons_self c cs))]
    rw [ih (fun x hx => h x (List.mem_cons_of_mem c hx))]

theorem takeWhile_append_sep {p : Char → Bool} {o : List Char} {x : Char}
    (r : List Char) (ho : ∀ c ∈ o, p c = true) (hx : p x = false) :
    (o ++ x :: r).takeWhile p = o := by
  induction o with
  | nil => simp [List.takeWhile_cons, hx]
  | cons c cs ih =>
    rw [List.cons_append, List.takeWhile_cons,
      if_pos (ho c (List.mem_cons_self c cs))]
    rw [ih (fun y hy => ho y (List.mem_cons_of_mem c hy))]

theorem dropWhile_append_sep {p : Char → Bool} {o : List Char} {x : Char}
    (r : List Char) (ho : ∀ c ∈ o, p c = true) (hx : p x = false) :
    (o ++ x :: r).dropWhile p = x :: r := by
  induction o with
  | nil => simp [List.dropWhile_cons, hx]
  | cons c cs ih =>
    rw [List.cons_append, List.dropWhile_cons,
      if_pos (ho c (List.mem_cons_self c cs))]
    exact ih (fun y hy => ho y (List.mem_cons_of_mem c hy))

theorem getLast?_append_right {A B : List Char} (hB : B ≠ []) :
    (A ++ B).getLast? = B.getLast? := by
  rw [List.getLast?_append]
  cases hB' : B.getLast? with
  | none => exact absurd (List.getLast?_eq_none_iff.mp hB') hB
  | some c => rfl

theorem matchHttpsPattern_append {o r : List Char} (ho1 : o ≠ []) (hr1 : r ≠ [])
    (ho : ∀ c ∈ o, notSlash c = true) (hr : ∀ c ∈ r, notSlash c = true) :
    matchHttpsPattern ("https://github.com/".data ++ (o ++ '/' :: r)) =
      some (o, r) := by
  obtain ⟨oc, ocs, rfl⟩ := List.exists_cons_of_ne_nil ho1
  obtain ⟨rc, rcs, rfl⟩ := List.exists_cons_of_ne_nil hr1
  have h1 := chopLead_append ("https://github.com/".data)
    ((oc :: ocs) ++ '/' :: rc :: rcs)
  have htw := takeWhile_append_sep (p := notSlash) (x := '/') (rc :: rcs) ho
    (by decide)
  have hdw := dropWhile_append_sep (p := notSlash) (x := '/') (rc :: rcs) ho
    (by decide)
  have htw2 := takeWhile_eq_self_of_all (p := notSlash) hr
  simp only [matchHttpsPattern, h1, htw, hdw, htw2]

theorem matchSshPattern_append {o r : List Char} (ho1 : o ≠ []) (hr1 : r ≠ [])
    (ho : ∀ c ∈ o, notSlash c = true) (hr : ∀ c ∈ r, notSlash c = true) :
    matchSshPattern ("git@github.com:".data ++ (o ++ '/' :: r)) =
      some (o, r) := by
  obtain ⟨oc, ocs, rfl⟩ := List.exists_cons_of_ne_nil ho1
  obtain ⟨rc, rcs, rfl⟩ := List.exists_cons_of_ne_nil hr1
  have h1 := chopLead_append ("git@github.com:".data)
    ((oc :: ocs) ++ '/' :: rc :: rcs)
  have htw := takeWhile_append_sep (p := notSlash) (x := '/') (rc :: rcs) ho
    (by decide)
  have hdw := dropWhile_append_sep (p := notSlash) (x := '/') (rc :: rcs) ho
    (by decide)
  have hall : (rc :: rcs).all notSlash = true := List.all_eq_true.mpr hr
  simp only [matchSshPattern, h1, htw, hdw, hall, List.isEmpty_cons,
    Bool.not_false, Bool.and_self]
  simp

theorem matchBarePattern_append {o r : List Char} (ho1 : o ≠ []) (hr1 : r ≠ [])
    (ho : ∀ c ∈ o, notSlashSpace c = true)
    (hr : ∀ c ∈ r, notSlashSpace c = true) :
    matchBarePattern (o ++ '/' :: r) = some (o, r) := by
  obtain ⟨oc, ocs, rfl⟩ := List.exists_cons_of_ne_nil ho1
  obtain ⟨rc, rcs, rfl⟩ := List.exists_cons_of_ne_nil hr1
  have htw := takeWhile_append_sep (p := notSlashSpace) (x := '/') (rc :: rcs)
    ho (by decide)
  have hdw := dropWhile_append_sep (p := notSlashSpace) (x := '/') (rc :: rcs)
    ho (by decide)
  have hall : (rc :: rcs).all notSlashSpace = true := List.all_eq_true.mpr hr
  simp only [matchBarePattern, htw, hdw, hall, List.isEmpty_cons,
    Bool.not_false, Bool.and_self]
  rfl

theorem matchHttpsPattern_git_prefix (X : List Char) :
    matchHttpsPattern ("git@github.com:".data ++ X) = none := by
  have h1 : chopLead ("https://github.com/".data)
      ("git@github.com:".data ++ X) = none := by
    show chopLead ('h' :: "ttps://github.com/".data)
      ('g' :: ("it@github.com:".data ++ X)) = none
    exact chopLead_none_head (by decide)
  have h2 : chopLead ("http://github.com/".data)
      ("git@github.com:".data ++ X) = none := by
    show chopLead ('h' :: "ttp://github.com/".data)
      ('g' :: ("it@github.com:".data ++ X)) = none
    exact chopLead_none_head (by decide)
  simp only [matchHttpsPattern, h1, h2]

theorem matchHttpsPattern_none_no_colon {l : List Char} (h : ':' ∉ l) :
    matchHttpsPattern l = none := by
  have h1 : chopLead ("https://github.com/".data) l = none :=
    chopLead_none_of_mem (by decide) h
  have h2 : chopLead ("http://github.com/".data) l = none :=
    chopLead_none_of_mem (by decide) h
  simp only [matchHttpsPattern, h1, h2]

theorem matchSshPattern_none_no_colon {l : List Char} (h : ':' ∉ l) :
    matchSshPattern l = none := by
  have h1 : chopLead ("git@github.com:".data) l = none :=
    chopLead_none_of_mem (by decide) h
  simp only [matchSshPattern, h1]

theorem cleanedInput_eq_self {l : List Char}
    (hsp : ∀ c ∈ l, isSpaceChar c = false)
    (hlast : ∀ c, l.getLast? = some c → c ≠ '/') : cleanedInput l = l := by
  unfold cleanedInput
  rw [trimList_eq_self hsp]
  exact stripTrailingSlashes_eq_self hlast

/-- C1 counterexample: A `.git` suffix is not stripped from the repo
segment: the greedy segment capture keeps it, so the https form with `.git`
yields repo "react.git", not "react". -/
theorem C1_git_suffix_counterexample :
    parseGitHubUrl ("https://github.com/facebook/react.git".data) =
      ⟨"facebook".data, "react.git".data, true⟩ ∧
    "react.git".data ≠ "react".data := by
  exact ⟨by decide, by decide⟩

/-- C1 amended: For the three recognized forms with github.com as host —
https://github.com/owner/repo (optionally with a trailing path), SSH
git@github.com:owner/repo, and bare owner/repo — parseGitHubUrl returns
isValid = true with owner and repo the two captured segments (trimmed);
segments here are nonempty and free of slashes, whitespace and colons, and a
`.git` suffix is kept as part of the repo segment rather than stripped. The
spec's example https://github.com/facebook/react/ yields facebook/react, as
does a URL with a trailing path. -/
theorem C1_recognized_forms :
    (∀ o r : List Char, o ≠ [] → r ≠ [] →
      (∀ c ∈ o, c ≠ '/' ∧ isSpaceChar c = false ∧ c ≠ ':') →
      (∀ c ∈ r, c ≠ '/' ∧ isSpaceChar c = false ∧ c ≠ ':') →
      parseGitHubUrl ("https://github.com/".data ++ (o ++ '/' :: r)) =
        ⟨o, r, true⟩ ∧
      parseGitHubUrl ("git@github.com:".data ++ (o ++ '/' :: r)) =
        ⟨o, r, true⟩ ∧
      parseGitHubUrl (o ++ '/' :: r) = ⟨o, r, true⟩) ∧
    parseGitHubUrl ("https://github.com/facebook/react/".data) =
      ⟨"facebook".data, "react".data, true⟩ ∧
    parseGitHubUrl ("https://github.com/facebook/react/tree/main".data) =
      ⟨"facebook".data, "react".data, true⟩ := by
  refine ⟨?_, by decide, by decide⟩
  intro o r ho1 hr1 ho hr
  have hoS : ∀ c ∈ o, notSlash c = true := fun c hc => by
    simp [notSlash, (ho c hc).1]
  have hrS : ∀ c ∈ r, notSlash c = true := fun c hc => by
    simp [notSlash, (hr c hc).1]
  have hoSp : ∀ c ∈ o, isSpaceChar c = false := fun c hc => (ho c hc).2.1
  have hrSp : ∀ c ∈ r, isSpaceChar c = false := fun c hc => (hr c hc).2.1
  have htail : ∀ c ∈ o ++ '/' :: r, isSpaceChar c = false := by
    intro c hc
    rcases List.mem_append.mp hc with hc | hc
    · exact hoSp c hc
    · rcases List.mem_cons.mp hc with hc | hc
      · subst hc
        decide
      · exact hrSp c hc
  have htailLast : ∀ c, (o ++ '/' :: r).getLast? = some c → c ≠ '/' := by
    intro c hcl
    rw [getLast?_append_right (List.cons_ne_nil _ _),
      show ('/' :: r) = ['/'] ++ r from rfl,
      getLast?_append_right hr1] at hcl
    exact (hr c (List.mem_of_mem_getLast? hcl)).1
  have hpreHttps : ∀ c ∈ "https://github.com/".data, isSpaceChar c = false := by
    decide
  have hpreSsh : ∀ c ∈ "git@github.com:".data, isSpaceChar c = false := by
    decide
  refine ⟨?_, ?_, ?_⟩
  · have hsp : ∀ c ∈ "https://github.com/".data ++ (o ++ '/' :: r),
        isSpaceChar c = false := by
      intro c hc
      rcases List.mem_append.mp hc with hc | hc
      · exact hpreHttps c hc
      · exact htail c hc
    have hlast : ∀ c, ("https://github.com/".data ++
        (o ++ '/' :: r)).getLast? = some c → c ≠ '/' := by
      intro c hcl
      rw [getLast?_append_right (by simp)] at hcl
      exact htailLast c hcl
    have hclean := cleanedInput_eq_self hsp hlast
    unfold parseGitHubUrl
    rw [hclean, matchHttpsPattern_append ho1 hr1 hoS hrS]
    show (⟨trimList o, trimList r, true⟩ : ParsedGitHubUrl) = ⟨o, r, true⟩
    rw [trimList_eq_self hoSp, trimList_eq_self hrSp]
  · have hsp : ∀ c ∈ "git@github.com:".data ++ (o ++ '/' :: r),
        isSpaceChar c = false := by
      intro c hc
      rcases List.mem_append.mp hc with hc | hc
      · exact hpreSsh c hc
      · exact htail c hc
    have hlast : ∀ c, ("git@github.com:".data ++
        (o ++ '/' :: r)).getLast? = some c → c ≠ '/' := by
      intro c hcl
      rw [getLast?_append_right (by simp)] at hcl
      exact htailLast c hcl
    have hclean := cleanedInput_eq_self hsp hlast
    unfold parseGitHubUrl
    rw [hclean, matchHttpsPattern_git_prefix,
      matchSshPattern_append ho1 hr1 hoS hrS]
    show (⟨trimList o, trimList r, true⟩ : ParsedGitHubUrl) = ⟨o, r, true⟩
    rw [trimList_eq_self hoSp, trimList_eq_self hrSp]
  · have hcolon : ':' ∉ o ++ '/' :: r := by
      intro hc
      rcases List.mem_append.mp hc with hc | hc
      · exact (ho _ hc).2.2 rfl
      · rcases List.mem_cons.mp hc with hc | hc
        · exact absurd hc (by decide)
        · exact (hr _ hc).2.2 rfl
    have hoNSS : ∀ c ∈ o, notSlashSpace c = true := fun c hc => by
      simp [notSlashSpace, notSlash, (ho c hc).1, hoSp c hc]
    have hrNSS : ∀ c ∈ r, notSlashSpace c = true := fun c hc => by
      simp [notSlashSpace, notSlash, (hr c hc).1, hrSp c hc]
    have hclean := cleanedInput_eq_self htail htailLast
    unfold parseGitHubUrl
    rw [hclean, matchHttpsPattern_none_no_colon hcolon,
      matchSshPattern_none_no_colon hcolon,
      matchBarePattern_append ho1 hr1 hoNSS hrNSS]
    show (⟨trimList o, trimList r, true⟩ : ParsedGitHubUrl) = ⟨o, r, true⟩
    rw [trimList_eq_self hoSp, trimList_eq_self hrSp]

/-- Witness for C1: the SSH form at facebook/react.git, the `.git` suffix kept
in the repo segment. -/
theorem C1_recognized_forms_witness :
    parseGitHubUrl ("git@github.com:facebook/react.git".data) =
      ⟨"facebook".data, "react.git".data, true⟩ :=
  (C1_recognized_forms.1 "facebook".data "react.git".data
    (by decide) (by decide) (by decide) (by decide)).2.1

theorem matchBarePattern_some {l : List Char} {o r : List Char}
    (h : matchBarePattern l = some (o, r)) :
    l = o ++ '/' :: r ∧ (∀ c ∈ o, notSlashSpace c = true) ∧
      (∀ c ∈ r, notSlashSpace c = true) := by
  unfold matchBarePattern at h
  cases htw : l.takeWhile notSlashSpace with
  | nil => rw [htw] at h; exact absurd h (by simp)
  | cons tc tcs =>
    cases hdw : l.dropWhile notSlashSpace with
    | nil => rw [htw, hdw] at h; exact absurd h (by simp)
    | cons dc dcs =>
      rw [htw, hdw] at h
      have h' : (if (dc = '/' && !dcs.isEmpty && dcs.all notSlashSpace) = true
          then some (tc :: tcs, dcs) else none) = some (o, r) := h
      by_cases hcond : (dc = '/' && !dcs.isEmpty && dcs.all notSlashSpace) = true
      · rw [if_pos hcond] at h'
        simp only [Option.some.injEq, Prod.mk.injEq] at h'
        obtain ⟨h5, h6⟩ := h'
        simp only [Bool.and_eq_true, decide_eq_true_eq] at hcond
        obtain ⟨⟨hslash, _⟩, hall⟩ := hcond
        refine ⟨?_, ?_, ?_⟩
        · rw [← h5, ← h6, ← hslash]
          rw [← htw, ← hdw]
          exact (List.takeWhile_append_dropWhile notSlashSpace l).symm
        · intro c hc
          rw [← h5] at hc
          exact List.mem_takeWhile_imp (htw ▸ hc)
        · intro c hc
          rw [← h6] at hc
          exact List.all_eq_true.mp hall c hc
      · rw [if_neg hcond] at h'
        exact absurd h' (by simp)

theorem count_slash_of_bare {l : List Char} {o r : List Char}
    (h : matchBarePattern l = some (o, r)) : l.count '/' = 1 := by
  obtain ⟨hl, ho, hr⟩ := matchBarePattern_some h
  have ho0 : o.count '/' = 0 := by
    rw [List.count_eq_zero]
    intro hc
    have := ho '/' hc
    simp [notSlashSpace, notSlash] at this
  have hr0 : r.count '/' = 0 := by
    rw [List.count_eq_zero]
    intro hc
    have := hr '/' hc
    simp [notSlashSpace, notSlash] at this
  rw [hl, List.count_append, ho0, List.count_cons_self, hr0]

/-- C7 counterexample: An input with internal whitespace can still be
accepted: the https segment class `[^\/]+` admits spaces, so this input parses
as valid with owner "face book"; the claim's guarantee of rejection for inputs
with internal whitespace fails. -/
theorem C7_internal_whitespace_counterexample :
    parseGitHubUrl ("https://github.com/face book/react".data) =
      ⟨"face book".data, "react".data, true⟩ ∧
    ' ' ∈ "https://github.com/face book/react".data := by
  exact ⟨by decide, by decide⟩

/-- C7 amended: parseGitHubUrl is total and never partially extracts: an
invalid result always carries empty owner and repo; and whenever the cleaned
input (trimmed, trailing slashes stripped) holds two or more slashes yet
matches neither the https nor the SSH pattern, the result is invalid with
empty owner and repo — the bare pattern can never fire on two or more slashes.
Internal whitespace alone does not force rejection. -/
theorem C7_rejection :
    ∀ input : List Char,
      ((parseGitHubUrl input).isValid = false →
        (parseGitHubUrl input).owner = [] ∧ (parseGitHubUrl input).repo = []) ∧
      (2 ≤ (cleanedInput input).count '/' →
        matchHttpsPattern (cleanedInput input) = none →
        matchSshPattern (cleanedInput input) = none →
        parseGitHubUrl input = ⟨[], [], false⟩) := by
  intro input
  constructor
  · intro hval
    unfold parseGitHubUrl at hval ⊢
    cases h1 : matchHttpsPattern (cleanedInput input) with
    | some p =>
      obtain ⟨o, r⟩ := p
      rw [h1] at hval
      simp at hval
    | none =>
      rw [h1] at hval
      cases h2 : matchSshPattern (cleanedInput input) with
      | some p =>
        obtain ⟨o, r⟩ := p
        rw [h2] at hval
        simp at hval
      | none =>
        rw [h2] at hval
        cases h3 : matchBarePattern (cleanedInput input) with
        | some p =>
          obtain ⟨o, r⟩ := p
          rw [h3] at hval
          simp at hval
        | none =>
          exact ⟨rfl, rfl⟩
  · intro hcount h1 h2
    have h3 : matchBarePattern (cleanedInput input) = none := by
      cases h3 : matchBarePattern (cleanedInput input) with
      | none => rfl
      | some p =>
        obtain ⟨o, r⟩ := p
        have := count_slash_of_bare h3
        omega
    unfold parseGitHubUrl
    rw [h1, h2, h3]

/-- Witness for C7 at the three-segment input a/b/c. -/
theorem C7_rejection_witness :
    parseGitHubUrl ("a/b/c".data) = ⟨[], [], false⟩ :=
  (C7_rejection ("a/b/c".data)).2 (by decide) (by decide) (by decide)

theorem isAlnum_isAlnumDash {c : Char} (h : isAlnum c = true) :
    isAlnumDash c = true := by
  simp [isAlnumDash, h]

theorem tailRunThenAlnum_iff : ∀ l : List Char,
    tailRunThenAlnum l = true ↔
      (l ≠ [] ∧ (∀ ch ∈ l, isAlnumDash ch = true) ∧
       (∀ ch, l.getLast? = some ch → isAlnum ch = true)) := by
  intro l
  induction l with
  | nil => simp [tailRunThenAlnum]
  | cons c cs ih =>
    cases cs with
    | nil =>
      show isAlnum c = true ↔ _
      constructor
      · intro h
        refine ⟨by simp, ?_, ?_⟩
        · intro ch hch
          rcases List.mem_cons.mp hch with rfl | hch
          · exact isAlnum_isAlnumDash h
          · exact absurd hch (by simp)
        · intro ch hch
          simp only [List.getLast?_singleton, Option.some.injEq] at hch
          rw [← hch]
          exact h
      · rintro ⟨_, _, h3⟩
        exact h3 c rfl
    | cons d ds =>
      rw [show tailRunThenAlnum (c :: d :: ds) =
        (isAlnumDash c && tailRunThenAlnum (d :: ds)) from rfl]
      rw [Bool.and_eq_true, ih]
      constructor
      · rintro ⟨h1, _, h2, h3⟩
        refine ⟨by simp, ?_, ?_⟩
        · intro ch hch
          rcases List.mem_cons.mp hch with rfl | hch
          · exact h1
          · exact h2 ch hch
        · intro ch hch
          rw [List.getLast?_cons_cons] at hch
          exact h3 ch hch
      · rintro ⟨_, h2, h3⟩
        refine ⟨h2 c (List.mem_cons_self _ _), by simp, ?_, ?_⟩
        · intro ch hch
          exact h2 ch (List.mem_cons_of_mem c hch)
        · intro ch hch
          exact h3 ch (by rw [List.getLast?_cons_cons]; exact hch)

theorem usernameRegexTest_iff : ∀ l : List Char,
    usernameRegexTest l = true ↔
      (l ≠ [] ∧ (∀ ch ∈ l, isAlnumDash ch = true) ∧
       (∀ ch, l.head? = some ch → isAlnum ch = true) ∧
       (∀ ch, l.getLast? = some ch → isAlnum ch = true)) := by
  intro l
  cases l with
  | nil => simp [usernameRegexTest]
  | cons c cs =>
    cases cs with
    | nil =>
      show isAlnum c = true ↔ _
      constructor
      · intro h
        refine ⟨by simp, ?_, ?_, ?_⟩
        · intro ch hch
          rcases List.mem_cons.mp hch with rfl | hch
          · exact isAlnum_isAlnumDash h
          · exact absurd hch (by simp)
        · intro ch hch
          simp only [List.head?_cons, Option.some.injEq] at hch
          rw [← hch]
          exact h
        · intro ch hch
          simp only [List.getLast?_singleton, Option.some.injEq] at hch
          rw [← hch]
          exact h
      · rintro ⟨_, _, h3, _⟩
        exact h3 c rfl
    | cons d ds =>
      rw [show usernameRegexTest (c :: d :: ds) =
        (isAlnum c && tailRunThenAlnum (d :: ds)) from rfl]
      rw [Bool.and_eq_true, tailRunThenAlnum_iff]
      constructor
      · rintro ⟨h1, _, h2, h3⟩
        refine ⟨by simp, ?_, ?_, ?_⟩
        · intro ch hch
          rcases List.mem_cons.mp hch with rfl | hch
          · exact isAlnum_isAlnumDash h1
          · exact h2 ch hch
        · intro ch hch
          simp only [List.head?_cons, Option.some.injEq] at hch
          rw [← hch]
          exact h1
        · intro ch hch
          rw [List.getLast?_cons_cons] at hch
          exact h3 ch hch
      · rintro ⟨_, h2, h3, h4⟩
        refine ⟨h3 c rfl, by simp, ?_, ?_⟩
        · intro ch hch
          exact h2 ch (List.mem_cons_of_mem c hch)
        · intro ch hch
          exact h4 ch (by rw [List.getLast?_cons_cons]; exact hch)

/-- The username shape in the spec's words, minus its consecutive-hyphen
clause: 1 to 39 characters, alphanumeric or hyphen throughout, first and last
character alphanumeric. -/
def usernameShape (c : List Char) : Prop :=
  1 ≤ c.length ∧ c.length ≤ 39 ∧ (∀ ch ∈ c, isAlnumDash ch = true) ∧
  (∀ ch, c.head? = some ch → isAlnum ch = true) ∧
  (∀ ch, c.getLast? = some ch → isAlnum ch = true)

/-- C6 counterexample: The character-class run `([a-zA-Z0-9-])*` of the
username regex accepts consecutive hyphens, so "a--b" is accepted although
the claim requires strings with consecutive hyphens to be rejected. -/
theorem C6_consecutive_hyphens_counterexample :
    isGitHubUsername ("a--b".data) = true ∧
    hasSubstr ("--".data) ("a--b".data) = true := by
  exact ⟨by decide, by decide⟩

/-- C6 amended: isGitHubUsername accepts exactly the trimmed inputs that
contain no slash, no "http" substring and no "git@" substring, and whose
shape is 1–39 characters, all alphanumeric or hyphen, starting and ending
with an alphanumeric; consecutive hyphens are allowed. The spec's examples:
"octocat" is accepted, "facebook/react", "-bad-" and a 40-character
alphanumeric string are rejected, and "a--b" is accepted. -/
theorem C6_username_validation :
    (∀ input : List Char,
       isGitHubUsername input = true ↔
         (('/' ∉ trimList input) ∧
          hasSubstr ("http".data) (trimList input) = false ∧
          hasSubstr ("git@".data) (trimList input) = false ∧
          usernameShape (trimList input))) ∧
    isGitHubUsername ("octocat".data) = true ∧
    isGitHubUsername ("facebook/react".data) = false ∧
    isGitHubUsername ("-bad-".data) = false ∧
    isGitHubUsername
      ("aaaaaaaaaaaaaaaaaaaaaaaaaaaaaaaaaaaaaaaa".data) = false ∧
    isGitHubUsername ("a--b".data) = true := by
  refine ⟨?_, by decide, by decide, by decide, by decide, by decide⟩
  intro input
  unfold isGitHubUsername
  by_cases hguard : ((trimList input).any (fun c => c = '/') ||
      hasSubstr ("http".data) (trimList input) ||
      hasSubstr ("git@".data) (trimList input)) = true
  · rw [if_pos hguard]
    simp only [Bool.false_eq_true, false_iff]
    intro hrhs
    obtain ⟨hs, hh, hg, _⟩ := hrhs
    rcases Bool.or_eq_true_iff.mp hguard with h | h
    · rcases Bool.or_eq_true_iff.mp h with h | h
      · obtain ⟨x, hx, hx2⟩ := List.any_eq_true.mp h
        rw [decide_eq_true_eq] at hx2
        exact hs (hx2 ▸ hx)
      · rw [h] at hh
        exact absurd hh (by simp)
    · rw [h] at hg
      exact absurd hg (by simp)
  · rw [if_neg hguard]
    rw [Bool.or_eq_true_iff, Bool.or_eq_true_iff] at hguard
    push_neg at hguard
    obtain ⟨⟨hs, hh⟩, hg⟩ := hguard
    rw [Bool.and_eq_true, usernameRegexTest_iff, decide_eq_true_eq]
    unfold usernameShape
    constructor
    · rintro ⟨⟨hne, hall, hhead, hlast⟩, hlen⟩
      refine ⟨?_, ?_, ?_, ?_⟩
      · intro hmem
        exact hs (List.any_eq_true.mpr ⟨'/', hmem, by simp⟩)
      · exact Bool.eq_false_iff.mpr hh
      · exact Bool.eq_false_iff.mpr hg
      · exact ⟨List.length_pos.mpr hne, hlen, hall, hhead, hlast⟩
    · rintro ⟨_, _, _, h1, hlen, hall, hhead, hlast⟩
      exact ⟨⟨List.length_pos.mp h1, hall, hhead, hlast⟩, hlen⟩

/-- Witness for C6: the characterization applied at "octocat". -/
theorem C6_username_validation_witness :
    isGitHubUsername ("octocat".data) = true :=
  (C6_username_validation.1 ("octocat".data)).mpr
    (by refine ⟨by decide, by decide, by decide, ?_⟩
        unfold usernameShape
        refine ⟨by decide, by decide, by decide, by decide, by decide⟩)

end GHA
